/-
Verification of the gifski encoding pipeline (gifski-api) against its
natural-language specification.

The Lean definitions below are shallow embeddings of the Rust source:
pure functions become Lean functions, stateful loops become explicit
state passing, machine integers become Nat/Int with explicit saturation
or truncation where the source relies on it, and f64 presentation
timestamps are modelled as exact rationals (the claims under scrutiny
concern the integer/ordering logic layered on top of the timestamps,
not float rounding).
-/
import Mathlib

namespace Gifski

/-! ## Basic pixel types (rgb crate: `RGB8`, `RGBA8` with u8 channels) -/

structure RGB8 where
  r : Nat
  g : Nat
  b : Nat
deriving DecidableEq

structure RGBA8 where
  r : Nat
  g : Nat
  b : Nat
  a : Nat
deriving DecidableEq

def RGBA8.rgb (p : RGBA8) : RGB8 := ⟨p.r, p.g, p.b⟩

def RGB8.alpha (p : RGB8) (a : Nat) : RGBA8 := ⟨p.r, p.g, p.b, a⟩

/-- `imgref::ImgVec`: a width×height raster stored as a flat pixel list. -/
structure Img (α : Type) where
  width : Nat
  height : Nat
  data : List α
deriving DecidableEq

/-! ## Error taxonomy (src/error.rs) and `combine_res` (src/lib.rs)

Payloads that are opaque to `combine_res` (io errors, strings, quantizer
errors, …) are modelled as `String`. -/

inductive Error where
  | ThreadSend
  | Aborted
  | Gifsicle
  | Gif (err : String)
  | NoFrames
  | Io (err : String)
  | PNG (msg : String)
  | WrongSize (msg : String)
  | Quant (liq : String)
  | Pal (gif : String)
deriving DecidableEq

/-- Rust `Result<(), Error>`. -/
abbrev GifResult := Except Error Unit

/-- `combine_res` from src/lib.rs: match arms translated in source order
(Rust `match` and Lean `match` both try patterns top to bottom). -/
def combine_res (res1 res2 : GifResult) : GifResult :=
  match res1, res2 with
  | .error e, .ok () => .error e
  | .ok (), .error e => .error e
  | .error .ThreadSend, res => res
  | res, .error .ThreadSend => res
  | .error .Aborted, res => res
  | res, .error .Aborted => res
  | .error .NoFrames, res => res
  | res, .error .NoFrames => res
  | _, res2 => res2

/-- The "noise" error kinds that `combine_res` discards when a second
error is available (spec names only Aborted/ThreadSend; the code also
treats NoFrames this way). -/
def Error.isNoise : Error → Bool
  | .ThreadSend => true
  | .Aborted => true
  | .NoFrames => true
  | _ => false

/-! ## Writer delay computation (src/lib.rs, `Writer::write_frames`)

```
let delay = ((end_pts * 100_f64).round() as u64)
    .saturating_sub(pts_in_delay_units)
    .clamp(2, 30000) as u16;
pts_in_delay_units += u64::from(delay);
```
-/

/-- f64 `round`: round half away from zero; modelled on exact rationals. -/
def rustRound (x : ℚ) : ℤ :=
  if 0 ≤ x then ⌊x + 1/2⌋ else -⌊-x + 1/2⌋

/-- Rust `as u64` on an f64 value that is already integral: saturating cast. -/
def castU64 (x : ℤ) : Nat :=
  if x < 0 then 0 else min x.toNat (2 ^ 64 - 1)

/-- One frame's delay: `round(end_pts*100)` saturating-minus the cumulative
centisecond counter (Nat subtraction saturates at 0, like `saturating_sub`),
clamped to `[2, 30000]` (Rust `clamp(lo, hi) = min (max x lo) hi`).
The final `as u16` cast is lossless because the value is ≤ 30000. -/
def writeDelay (end_pts : ℚ) (pts_in_delay_units : Nat) : Nat :=
  min (max (castU64 (rustRound (end_pts * 100)) - pts_in_delay_units) 2) 30000

/-- The writer loop over the frames reaching it, in order: emits each delay
and advances the cumulative counter by exactly that delay. -/
def writeDelays : List ℚ → Nat → List Nat
  | [], _ => []
  | p :: ps, cum =>
    let d := writeDelay p cum
    d :: writeDelays ps (cum + d)

/-! ### C1 helper lemmas -/

theorem writeDelay_ge_two (p : ℚ) (c : Nat) : 2 ≤ writeDelay p c := by
  unfold writeDelay
  omega

theorem writeDelay_le (p : ℚ) (c : Nat) : writeDelay p c ≤ 30000 := by
  unfold writeDelay
  omega

theorem writeDelays_length (ps : List ℚ) (c : Nat) :
    (writeDelays ps c).length = ps.length := by
  induction ps generalizing c with
  | nil => rfl
  | cons p ps ih => simp [writeDelays, ih]

theorem writeDelays_getD (ps : List ℚ) (c : Nat) (i : Nat) (hi : i < ps.length) :
    (writeDelays ps c).getD i 0 =
      writeDelay (ps.getD i 0) (c + ((writeDelays ps c).take i).sum) := by
  induction ps generalizing c i with
  | nil => simp at hi
  | cons p ps ih =>
    cases i with
    | zero => simp [writeDelays]
    | succ j =>
      have hj : j < ps.length := by simpa using hi
      simp only [writeDelays, List.getD_cons_succ, List.take_succ_cons, List.sum_cons]
      rw [ih _ j hj]
      ring_nf

theorem writeDelays_mem (ps : List ℚ) (c : Nat) :
    ∀ d ∈ writeDelays ps c, 2 ≤ d ∧ d ≤ 30000 := by
  induction ps generalizing c with
  | nil => simp [writeDelays]
  | cons p ps ih =>
    intro d hd
    simp only [writeDelays, List.mem_cons] at hd
    rcases hd with h | h
    · exact h ▸ ⟨writeDelay_ge_two p c, writeDelay_le p c⟩
    · exact ih _ d h

/-- C1: for every sequence of frames reaching the writer, the delay written
for each frame equals `round(end_pts·100)` minus the cumulative centisecond
counter (saturating at zero, via Nat subtraction), clamped to `[2, 30000]`;
the counter is then advanced by exactly the emitted delay (the counter seen
by frame `i` is the initial counter plus the sum of the previously emitted
delays); consequently every written delay lies in `[2, 30000]`. -/
theorem claim1_writer_delays (ps : List ℚ) (cum : Nat) :
    ((writeDelays ps cum).length = ps.length) ∧
    (∀ i, i < ps.length →
      (writeDelays ps cum).getD i 0 =
        writeDelay (ps.getD i 0) (cum + ((writeDelays ps cum).take i).sum)) ∧
    (∀ d ∈ writeDelays ps cum, 2 ≤ d ∧ d ≤ 30000) :=
  ⟨writeDelays_length ps cum,
   fun i hi => writeDelays_getD ps cum i hi,
   writeDelays_mem ps cum⟩

/-- Witness for C1 at the concrete input `end_pts = [3/2 s, 2 s]`,
starting counter 0: delays come out as `[150, 50]`. -/
theorem claim1_writer_delays_witness :
    (1 < ([(3/2 : ℚ), 2]).length) ∧
    ((writeDelays [(3/2 : ℚ), 2] 0).getD 1 0 =
      writeDelay (([(3/2 : ℚ), 2]).getD 1 0)
        (0 + ((writeDelays [(3/2 : ℚ), 2] 0).take 1).sum)) ∧
    writeDelays [(3/2 : ℚ), 2] 0 = [150, 50] :=
  ⟨by decide, (claim1_writer_delays [(3/2 : ℚ), 2] 0).2.1 1 (by decide),
   by norm_num [writeDelays, writeDelay, rustRound, castU64]; decide⟩

/-! ### C9 -/

/-- C9 counterexample: when both inputs are *real* errors (neither is
Aborted/ThreadSend/NoFrames noise), `combine_res` keeps the **second**
error, not the first cause as the claim states: at the concrete input
`(Err(Gifsicle), Err(Gif "x"))` the result is not `Err(Gifsicle)`. -/
theorem claim9_combine_res_counterexample :
    ¬ (combine_res (.error .Gifsicle) (.error (.Gif "x")) = .error .Gifsicle) := by
  simp [combine_res]

/-- C9 amended: `combine_res` returns Ok exactly when both inputs are Ok;
if exactly one input is an error, that error is returned; if both are
errors, ThreadSend, Aborted and NoFrames noise is discarded (in that
order of precedence) in favor of the other error, and when both errors
are real causes the second one is kept. -/
theorem claim9_combine_res_amended (r1 r2 : GifResult) :
    (combine_res r1 r2 = .ok () ↔ r1 = .ok () ∧ r2 = .ok ()) ∧
    (∀ e : Error, combine_res (.error e) (.ok ()) = .error e
      ∧ combine_res (.ok ()) (.error e) = .error e) ∧
    (∀ e1 e2 : Error,
      combine_res (.error e1) (.error e2) =
        if e1 = .ThreadSend then .error e2
        else if e2 = .ThreadSend then .error e1
        else if e1 = .Aborted then .error e2
        else if e2 = .Aborted then .error e1
        else if e1 = .NoFrames then .error e2
        else if e2 = .NoFrames then .error e1
        else .error e2) := by
  refine ⟨?_, ?_, ?_⟩
  · rcases r1 with e1 | u1 <;> rcases r2 with e2 | u2
    · cases e1 <;> cases e2 <;> simp [combine_res]
    · cases u2; cases e1 <;> simp [combine_res]
    · cases u1; cases e2 <;> simp [combine_res]
    · cases u1; cases u2; simp [combine_res]
  · intro e; cases e <;> simp [combine_res]
  · intro e1 e2; cases e1 <;> cases e2 <;> simp [combine_res]

/-! ## Transparency normalization (src/lib.rs, `transparent_index_from_palette`)

```
let mut transparent_index = None;
for (i, p) in image8_pal.iter_mut().enumerate() {
    if p.a <= 128 {
        *p = RGBA8::new(71,80,76,0);
        let new_index = i as u8;
        if let Some(old_index) = transparent_index {
            image8.pixels_mut().filter(|px| **px == new_index).for_each(|px| *px = old_index);
        } else {
            transparent_index = Some(new_index);
        }
    }
}
(image8_pal.into_iter().map(|r| r.rgb()).collect(), transparent_index)
```
-/

/-- The enumerate loop, with `k` the running index `i`; the state is the
pixel buffer and the chosen transparent index. `i as u8` is `i % 256`. -/
def tifpGo (k : Nat) : List RGBA8 → List Nat → Option Nat →
    (List RGBA8 × List Nat × Option Nat)
  | [], img, ti => ([], img, ti)
  | p :: rest, img, ti =>
    if p.a ≤ 128 then
      let new_index := k % 256
      match ti with
      | some old_index =>
        let img2 := img.map fun px => if px = new_index then old_index else px
        let r := tifpGo (k + 1) rest img2 (some old_index)
        (⟨71, 80, 76, 0⟩ :: r.1, r.2)
      | none =>
        let r := tifpGo (k + 1) rest img (some new_index)
        (⟨71, 80, 76, 0⟩ :: r.1, r.2)
    else
      let r := tifpGo (k + 1) rest img ti
      (p :: r.1, r.2)

/-- `transparent_index_from_palette`: run the loop from index 0 and drop
the alpha channel of the palette for the GIF encoder; additionally returns
the rewritten pixel buffer (mutated in place in the source). -/
def transparent_index_from_palette (pal : List RGBA8) (img : List Nat) :
    List RGB8 × List Nat × Option Nat :=
  let r := tifpGo 0 pal img none
  (r.1.map RGBA8.rgb, r.2)

/-- Spec-side helper: does position `px` (an index into the palette suffix
starting at absolute index `k`) hold an entry with alpha ≤ 128? -/
def transparentAt (k : Nat) : List RGBA8 → Nat → Bool
  | [], _ => false
  | p :: rest, px => ((k == px) && decide (p.a ≤ 128)) || transparentAt (k + 1) rest px

theorem transparentAt_eq (pal : List RGBA8) (k px : Nat)
    (h1 : k ≤ px) (h2 : px < k + pal.length) :
    transparentAt k pal px = decide ((pal.getD (px - k) ⟨0, 0, 0, 255⟩).a ≤ 128) := by
  induction pal generalizing k with
  | nil => simp at h2; omega
  | cons p rest ih =>
    by_cases hk : k = px
    · subst hk
      have hout : transparentAt (k + 1) rest k = false := by
        clear h2 ih
        have : ∀ (m : Nat) (l : List RGBA8), k < m → transparentAt m l k = false := by
          intro m l
          induction l generalizing m with
          | nil => intro _; rfl
          | cons q t ih2 =>
            intro hm
            have hne : (m == k) = false := by simp; omega
            simp [transparentAt, hne, ih2 (m + 1) (by omega)]
        exact this (k + 1) rest (by omega)
      simp [transparentAt, hout]
    · have hlt : k + 1 ≤ px := by omega
      have hne : (k == px) = false := by simp; omega
      have := ih (k + 1) hlt (by simp at h2 ⊢; omega)
      simp only [transparentAt, hne, Bool.false_and, Bool.false_or, this]
      have : px - k = (px - (k + 1)) + 1 := by omega
      simp [this]

/-- In the `some` phase every remaining transparent entry's index is
rewritten to the committed `old_index`, every entry with alpha ≤ 128 turns
into the marker color, and the committed index is kept. -/
theorem tifpGo_some (pal : List RGBA8) (img : List Nat) (k t : Nat)
    (hk : k + pal.length ≤ 256) :
    tifpGo k pal img (some t) =
      (pal.map (fun p => if p.a ≤ 128 then ⟨71, 80, 76, 0⟩ else p),
       img.map (fun px => if transparentAt k pal px then t else px),
       some t) := by
  induction pal generalizing k img with
  | nil => simp [tifpGo, transparentAt]
  | cons p rest ih =>
    have hk256 : k % 256 = k := Nat.mod_eq_of_lt (by simp at hk; omega)
    by_cases hp : p.a ≤ 128
    · have ihr := ih (img.map fun px => if px = k then t else px) (k + 1) (by simp at hk ⊢; omega)
      simp only [tifpGo, if_pos hp, hk256, ihr, List.map_map, Prod.mk.injEq]
      refine ⟨by simp [hp], ?_, trivial⟩
      apply List.map_congr_left
      intro px _
      by_cases hpx : px = k
      · subst hpx
        simp [transparentAt, hp, Function.comp]
      · simp [Function.comp, hpx, transparentAt, Ne.symm hpx]
    · have ihr := ih img (k + 1) (by simp at hk ⊢; omega)
      simp only [tifpGo, if_neg hp, ihr, Prod.mk.injEq]
      refine ⟨by simp [hp], ?_, trivial⟩
      apply List.map_congr_left
      intro px _
      simp [transparentAt, hp]

/-- In the `none` phase the loop scans for the first entry with alpha ≤ 128
(`findIdx?` starting at `k`), commits it, and thereafter behaves like the
`some` phase; if there is no such entry the pixels are untouched. -/
theorem tifpGo_none (pal : List RGBA8) (img : List Nat) (k : Nat)
    (hk : k + pal.length ≤ 256) :
    tifpGo k pal img none =
      (pal.map (fun p => if p.a ≤ 128 then ⟨71, 80, 76, 0⟩ else p),
       (match List.findIdx? (fun p => decide (p.a ≤ 128)) pal k with
        | none => img
        | some t => img.map (fun px => if transparentAt k pal px then t else px)),
       List.findIdx? (fun p => decide (p.a ≤ 128)) pal k) := by
  induction pal generalizing k img with
  | nil => simp [tifpGo]
  | cons p rest ih =>
    have hk256 : k % 256 = k := Nat.mod_eq_of_lt (by simp at hk; omega)
    by_cases hp : p.a ≤ 128
    · have hs := tifpGo_some rest img (k + 1) k (by simp at hk ⊢; omega)
      simp only [tifpGo, if_pos hp, hk256, hs, List.findIdx?_cons, decide_eq_true hp, if_pos rfl, Prod.mk.injEq]
      refine ⟨by simp [hp], ?_, rfl⟩
      apply List.map_congr_left
      intro px _
      by_cases hpx : px = k
      · subst hpx; simp [transparentAt, hp]
      · simp [transparentAt, Ne.symm hpx, hp]
    · have ihr := ih img (k + 1) (by simp at hk ⊢; omega)
      have hpd : (decide (p.a ≤ 128)) = false := by simpa using hp
      simp only [tifpGo, if_neg hp, ihr, List.findIdx?_cons, hpd, Bool.false_eq_true, if_neg, Prod.mk.injEq]
      refine ⟨by simp [hp], ?_, by simp⟩
      cases hfi : List.findIdx? (fun p => decide (p.a ≤ 128)) rest (k + 1) with
      | none => simp
      | some t =>
        apply List.map_congr_left
        intro px _
        simp [transparentAt, hp]

/-- C4 counterexample: the claim also asserts that after normalization at
most one palette entry is the transparent marker (spec: "at most one entry
has a=0"). False: the loop rewrites **every** entry with alpha ≤ 128 to
the marker color `RGBA(71,80,76,0)`, so with the concrete palette
`[RGBA(10,10,10,0), RGBA(20,20,20,50)]` the normalized RGBA palette holds
two entries with `a = 0` (only one of them is still referenced). -/
theorem claim4_normalization_counterexample :
    ¬ ((((tifpGo 0 [⟨10, 10, 10, 0⟩, ⟨20, 20, 20, 50⟩] [0, 1] none).1).countP
        (fun p => decide (p.a = 0))) ≤ 1) := by
  decide

/-- Helper: the transparent index returned is the first palette position
with alpha ≤ 128. -/
theorem tifp_ti (pal : List RGBA8) (img : List Nat) (h2 : pal.length ≤ 256) :
    (transparent_index_from_palette pal img).2.2 =
      List.findIdx? (fun p => decide (p.a ≤ 128)) pal := by
  have hnone := tifpGo_none pal img 0 (by omega)
  simp only [transparent_index_from_palette, hnone]

/-- Helper: when some entry is transparent, every pixel at a transparent
entry is rewritten to the committed first index, and pixels at opaque
entries are unchanged. -/
theorem tifp_img_rewrite (pal : List RGBA8) (img : List Nat)
    (h1 : ∀ px ∈ img, px < pal.length) (h2 : pal.length ≤ 256) (t0 : Nat)
    (ht0 : (transparent_index_from_palette pal img).2.2 = some t0) :
    (transparent_index_from_palette pal img).2.1 =
      img.map fun px => if (pal.getD px ⟨0, 0, 0, 255⟩).a ≤ 128 then t0 else px := by
  have hnone := tifpGo_none pal img 0 (by omega)
  rw [tifp_ti pal img h2] at ht0
  have ht0' : List.findIdx? (fun p => decide (p.a ≤ 128)) pal 0 = some t0 := ht0
  simp only [transparent_index_from_palette, hnone, ht0']
  apply List.map_congr_left
  intro px hpx
  have hlt := h1 px hpx
  rw [transparentAt_eq pal 0 px (Nat.zero_le px) (by omega)]
  simp

/-- C4 amended: for every palette (≤ 256 entries) and in-range pixel buffer,
normalization returns the first palette position with alpha ≤ 128 as the
transparent index (`none` when no such entry exists); every pixel whose
palette entry had alpha ≤ 128 is rewritten to that single index and pixels
referencing opaque entries are unchanged; after normalization at most one
transparent entry is referenced — no pixel points at a collapsed extra —
while in the RGBA palette **all** entries with alpha ≤ 128 (possibly more
than one) become the transparent marker color before alpha is dropped. -/
theorem claim4_normalization_amended (pal : List RGBA8) (img : List Nat)
    (h1 : ∀ px ∈ img, px < pal.length) (h2 : pal.length ≤ 256) :
    ((transparent_index_from_palette pal img).2.2 =
        List.findIdx? (fun p => decide (p.a ≤ 128)) pal) ∧
    (∀ t0, (transparent_index_from_palette pal img).2.2 = some t0 →
      (transparent_index_from_palette pal img).2.1 =
        img.map fun px => if (pal.getD px ⟨0, 0, 0, 255⟩).a ≤ 128 then t0 else px) ∧
    ((transparent_index_from_palette pal img).2.2 = none →
      (transparent_index_from_palette pal img).2.1 = img) ∧
    (∀ j, j < pal.length → (pal.getD j ⟨0, 0, 0, 255⟩).a ≤ 128 →
      (transparent_index_from_palette pal img).2.2 ≠ some j →
      j ∉ (transparent_index_from_palette pal img).2.1) ∧
    ((tifpGo 0 pal img none).1 =
      pal.map fun p => if p.a ≤ 128 then ⟨71, 80, 76, 0⟩ else p) := by
  have hnone := tifpGo_none pal img 0 (by omega)
  refine ⟨tifp_ti pal img h2, fun t0 ht0 => tifp_img_rewrite pal img h1 h2 t0 ht0, ?_, ?_, ?_⟩
  · intro hn
    rw [tifp_ti pal img h2] at hn
    have hn' : List.findIdx? (fun p => decide (p.a ≤ 128)) pal 0 = none := hn
    simp only [transparent_index_from_palette, hnone, hn']
  · intro j hj hja hjne
    cases hfi : (transparent_index_from_palette pal img).2.2 with
    | none =>
      rw [tifp_ti pal img h2] at hfi
      exfalso
      have hgd : pal.getD j ⟨0, 0, 0, 255⟩ = pal[j] := List.getD_eq_getElem pal _ hj
      have hmem : (pal.getD j ⟨0, 0, 0, 255⟩) ∈ pal := by
        rw [hgd]; exact List.getElem_mem hj
      have := List.findIdx?_eq_none_iff.mp hfi
      have hfalse := this _ hmem
      rw [decide_eq_false_iff_not] at hfalse
      exact hfalse hja
    | some t0 =>
      rw [tifp_img_rewrite pal img h1 h2 t0 hfi]
      intro hmem
      obtain ⟨px, hpxmem, hpxeq⟩ := List.mem_map.mp hmem
      by_cases hc : (pal.getD px ⟨0, 0, 0, 255⟩).a ≤ 128
      · rw [if_pos hc] at hpxeq
        exact hjne (hpxeq ▸ hfi)
      · rw [if_neg hc] at hpxeq
        exact hc (hpxeq ▸ hja)
  · simp only [hnone]

/-- Witness for C4 amended at a concrete palette and pixel buffer:
palette `[opaque, a=10, a=20]`, pixels `[0,1,2]`: the transparent index is
1, the collapsed entry 2 is rewritten to 1, the opaque pixel is kept. -/
theorem claim4_normalization_amended_witness :
    (∀ px ∈ [0, 1, 2], px < ([⟨5, 5, 5, 200⟩, ⟨1, 1, 1, 10⟩, ⟨2, 2, 2, 20⟩] : List RGBA8).length) ∧
    (([⟨5, 5, 5, 200⟩, ⟨1, 1, 1, 10⟩, ⟨2, 2, 2, 20⟩] : List RGBA8).length ≤ 256) ∧
    (transparent_index_from_palette ([⟨5, 5, 5, 200⟩, ⟨1, 1, 1, 10⟩, ⟨2, 2, 2, 20⟩] : List RGBA8) [0, 1, 2]).2.2 =
      List.findIdx? (fun p => decide (p.a ≤ 128)) ([⟨5, 5, 5, 200⟩, ⟨1, 1, 1, 10⟩, ⟨2, 2, 2, 20⟩] : List RGBA8) ∧
    (transparent_index_from_palette ([⟨5, 5, 5, 200⟩, ⟨1, 1, 1, 10⟩, ⟨2, 2, 2, 20⟩] : List RGBA8) [0, 1, 2]).2.1 = [0, 1, 1] := by
  have h := claim4_normalization_amended ([⟨5, 5, 5, 200⟩, ⟨1, 1, 1, 10⟩, ⟨2, 2, 2, 20⟩] : List RGBA8) [0, 1, 2]
    (by decide) (by decide)
  refine ⟨by decide, by decide, h.1, ?_⟩
  rw [h.2.1 1 (by rw [h.1]; decide)]
  decide

/-! ## Diff consumer / quantizer feeder (src/lib.rs, `Writer::quantize_frames`)

The serial loop that takes denoised `DiffMessage`s with one-frame
look-ahead, drops bit-identical frames, chooses the disposal method and
the end-PTS, and sends surviving frames to the quantization pool. -/

inductive DisposalMethod where
  | Keep
  | Background
deriving DecidableEq

structure DiffMessage where
  ordinal_frame_number : Nat
  pts : ℚ
  frame_duration : ℚ
  image : List RGBA8
  importance_map : List Nat
deriving DecidableEq

structure QuantizeMessage where
  ordinal_frame_number : Nat
  frame_index : Nat
  first_frame_has_transparency : Bool
  image : List RGBA8
  importance_map : List Nat
  prev_frame_keeps : Bool
  dispose : DisposalMethod
  end_pts : ℚ
  has_next_frame : Bool
deriving DecidableEq

/-- Disposal choice for a frame with a different successor: `Background`
if any pixel of `next` is strictly more transparent than the pixel at the
same position of `current`, else `Keep`. -/
def chooseDispose (next curr : List RGBA8) : DisposalMethod :=
  if (next.zip curr).any (fun q => decide (q.1.a < q.2.a)) then .Background else .Keep

/-- The `while let` loop of `quantize_frames`: `curr` is the frame in hand,
the list is the remaining input; `impMap` is the `Option<Vec<u8>>` that is
filled at the top of each iteration when empty and taken on emission. -/
def quantizeGo (fht : Bool) (impMap : Option (List Nat)) (prevKeeps : Bool)
    (frameIndex : Nat) (curr : DiffMessage) :
    List DiffMessage → List QuantizeMessage
  | next :: rest =>
    let impMap := some (impMap.getD curr.importance_map)
    if next.image = curr.image then
      -- skip identical frames, keeping the series' first importance map
      quantizeGo fht impMap prevKeeps frameIndex next rest
    else
      let dispose := chooseDispose next.image curr.image
      let m := impMap.getD []
      if !prevKeeps || m.any (fun px => decide (0 < px)) then
        { ordinal_frame_number := curr.ordinal_frame_number
          frame_index := frameIndex
          first_frame_has_transparency := fht
          image := curr.image
          importance_map := m
          prev_frame_keeps := prevKeeps
          dispose := dispose
          end_pts := next.pts
          has_next_frame := true } ::
        quantizeGo fht none (decide (dispose = DisposalMethod.Keep)) (frameIndex + 1) next rest
      else
        quantizeGo fht none prevKeeps frameIndex next rest
  | [] =>
    let impMap := some (impMap.getD curr.importance_map)
    let dispose := if fht then DisposalMethod.Background else DisposalMethod.Keep
    let m := impMap.getD []
    if !prevKeeps || m.any (fun px => decide (0 < px)) then
      [{ ordinal_frame_number := curr.ordinal_frame_number
         frame_index := frameIndex
         first_frame_has_transparency := fht
         image := curr.image
         importance_map := m
         prev_frame_keeps := prevKeeps
         dispose := dispose
         end_pts := curr.pts + curr.frame_duration
         has_next_frame := false }]
    else []

/-- `quantize_frames`: `first_frame_has_transparency` is computed from the
first received frame, which is then processed as the first `curr`. -/
def quantizeFrames : List DiffMessage → List QuantizeMessage
  | [] => []
  | d :: rest =>
    let fht := d.image.any (fun px => decide (px.a < 128))
    quantizeGo fht none false 0 d rest

/-- Every emitted message's ordinal comes from one of the processed frames. -/
theorem quantizeGo_ordinal_subset (rest : List DiffMessage) (fht : Bool)
    (impMap : Option (List Nat)) (prevKeeps : Bool) (frameIndex : Nat)
    (curr : DiffMessage) (msg : QuantizeMessage)
    (hm : msg ∈ quantizeGo fht impMap prevKeeps frameIndex curr rest) :
    msg.ordinal_frame_number ∈
      curr.ordinal_frame_number :: rest.map (·.ordinal_frame_number) := by
  induction rest generalizing impMap prevKeeps frameIndex curr with
  | nil =>
    simp only [quantizeGo] at hm
    split at hm
    · simp only [List.mem_singleton] at hm
      subst hm
      simp
    · simp at hm
  | cons next rest ih =>
    simp only [quantizeGo] at hm
    split at hm
    · have := ih _ _ _ _ hm
      simp only [List.mem_cons] at this ⊢
      tauto
    · split at hm
      · simp only [List.mem_cons] at hm
        rcases hm with h | h
        · subst h; simp
        · have := ih _ _ _ _ h
          simp only [List.mem_cons] at this ⊢
          tauto
      · have := ih _ _ _ _ hm
        simp only [List.mem_cons] at this ⊢
        tauto

/-- If a message has no next frame it is the final frame, and its disposal
was chosen purely from `first_frame_has_transparency`. -/
theorem quantizeGo_last_dispose (rest : List DiffMessage) (fht : Bool)
    (impMap : Option (List Nat)) (prevKeeps : Bool) (frameIndex : Nat)
    (curr : DiffMessage) (msg : QuantizeMessage)
    (hm : msg ∈ quantizeGo fht impMap prevKeeps frameIndex curr rest)
    (hl : msg.has_next_frame = false) :
    msg.dispose = (if fht then DisposalMethod.Background else DisposalMethod.Keep) := by
  induction rest generalizing impMap prevKeeps frameIndex curr with
  | nil =>
    simp only [quantizeGo] at hm
    split at hm
    · simp only [List.mem_singleton] at hm
      subst hm
      rfl
    · simp at hm
  | cons next rest ih =>
    simp only [quantizeGo] at hm
    split at hm
    · exact ih _ _ _ _ hm
    · split at hm
      · simp only [List.mem_cons] at hm
        rcases hm with h | h
        · subst h; simp at hl
        · exact ih _ _ _ _ h
      · exact ih _ _ _ _ hm

/-- Pairwise `any` over a zip, stated with positional indexing. -/
theorem zip_any_alpha_lt (n c : List RGBA8) :
    ((n.zip c).any (fun q => decide (q.1.a < q.2.a)) = true) ↔
      ∃ i, i < n.length ∧ i < c.length ∧
        (n.getD i ⟨0, 0, 0, 0⟩).a < (c.getD i ⟨0, 0, 0, 0⟩).a := by
  induction n generalizing c with
  | nil => simp
  | cons x n ih =>
    cases c with
    | nil => simp
    | cons y c =>
      simp only [List.zip_cons_cons, List.any_cons, Bool.or_eq_true, decide_eq_true_eq, ih]
      constructor
      · rintro (h | ⟨i, h1, h2, h3⟩)
        · exact ⟨0, by simp, by simp, by simpa using h⟩
        · exact ⟨i + 1, by simpa using h1, by simpa using h2, by simpa using h3⟩
      · rintro ⟨i, h1, h2, h3⟩
        cases i with
        | zero => left; simpa using h3
        | succ j =>
          right
          exact ⟨j, by simpa using h1, by simpa using h2, by simpa using h3⟩

/-- C3: for a frame with a (different-image) successor, the chosen disposal
is `Background` exactly when some pixel of the next frame has strictly
smaller alpha than the pixel at the same position of the current frame,
and `Keep` otherwise; the first frame of such a pair is emitted with
exactly that disposal. -/
theorem claim3_dispose_choice (d1 d2 : DiffMessage) (rest : List DiffMessage)
    (h : d1.image ≠ d2.image) :
    (quantizeFrames (d1 :: d2 :: rest) =
      { ordinal_frame_number := d1.ordinal_frame_number
        frame_index := 0
        first_frame_has_transparency := d1.image.any (fun px => decide (px.a < 128))
        image := d1.image
        importance_map := d1.importance_map
        prev_frame_keeps := false
        dispose := chooseDispose d2.image d1.image
        end_pts := d2.pts
        has_next_frame := true } ::
      quantizeGo (d1.image.any (fun px => decide (px.a < 128))) none
        (decide (chooseDispose d2.image d1.image = DisposalMethod.Keep)) 1 d2 rest) ∧
    (chooseDispose d2.image d1.image = DisposalMethod.Background ↔
      ∃ i, i < d2.image.length ∧ i < d1.image.length ∧
        (d2.image.getD i ⟨0, 0, 0, 0⟩).a < (d1.image.getD i ⟨0, 0, 0, 0⟩).a) := by
  constructor
  · have hne : ¬ (d2.image = d1.image) := fun hh => h hh.symm
    simp [quantizeFrames, quantizeGo, hne]
  · unfold chooseDispose
    by_cases hz : (d2.image.zip d1.image).any (fun q => decide (q.1.a < q.2.a)) = true
    · rw [if_pos hz]
      simp only [true_iff]
      exact (zip_any_alpha_lt d2.image d1.image).mp hz
    · rw [if_neg hz]
      constructor
      · intro hk
        exact DisposalMethod.noConfusion hk
      · intro hex
        exact absurd ((zip_any_alpha_lt d2.image d1.image).mpr hex) hz

/-- Witness for C3: a two-frame input where frame 2 makes a previously
opaque pixel transparent; frame 1 is emitted with dispose = Background. -/
theorem claim3_dispose_choice_witness :
    ((⟨1, 0, 1, [⟨9, 9, 9, 255⟩], [7]⟩ : DiffMessage).image ≠
      (⟨2, 1, 1, [⟨9, 9, 9, 0⟩], [0]⟩ : DiffMessage).image) ∧
    (quantizeFrames [⟨1, 0, 1, [⟨9, 9, 9, 255⟩], [7]⟩, ⟨2, 1, 1, [⟨9, 9, 9, 0⟩], [0]⟩]).head?.map
      (fun m => m.dispose) = some DisposalMethod.Background := by
  refine ⟨by decide, ?_⟩
  have h := claim3_dispose_choice ⟨1, 0, 1, [⟨9, 9, 9, 255⟩], [7]⟩ ⟨2, 1, 1, [⟨9, 9, 9, 0⟩], [0]⟩ []
    (by decide)
  rw [h.1]
  have hb : chooseDispose [⟨9, 9, 9, 0⟩] [⟨9, 9, 9, 255⟩] = DisposalMethod.Background :=
    h.2.mpr ⟨0, by decide, by decide, by decide⟩
  simp [hb]

/-- C10: for the final frame of a non-empty input (the emitted message with
`has_next_frame = false`), the disposal is `Background` iff the first frame
of the animation has at least one pixel with alpha < 128, else `Keep`. -/
theorem claim10_final_frame_dispose (d : DiffMessage) (rest : List DiffMessage)
    (msg : QuantizeMessage) (hm : msg ∈ quantizeFrames (d :: rest))
    (hl : msg.has_next_frame = false) :
    (msg.dispose = DisposalMethod.Background ↔
      d.image.any (fun px => decide (px.a < 128)) = true) ∧
    (msg.dispose = DisposalMethod.Keep ↔
      ¬ (d.image.any (fun px => decide (px.a < 128)) = true)) := by
  have hd := quantizeGo_last_dispose rest (d.image.any (fun px => decide (px.a < 128)))
    none false 0 d msg hm hl
  rcases hfb : d.image.any (fun px => decide (px.a < 128)) with _ | _ <;>
    rw [hfb] at hd <;> simp at hd <;> simp [hd]

/-- Witness for C10: a single transparent frame yields one message with no
next frame, disposed to Background. -/
theorem claim10_final_frame_dispose_witness :
    ((⟨1, 0, true, [⟨0, 0, 0, 0⟩], [5], false, DisposalMethod.Background, 0 + 1, false⟩ : QuantizeMessage)
      ∈ quantizeFrames [⟨1, 0, 1, [⟨0, 0, 0, 0⟩], [5]⟩]) ∧
    ((⟨1, 0, true, [⟨0, 0, 0, 0⟩], [5], false, DisposalMethod.Background, 0 + 1, false⟩ : QuantizeMessage).dispose
      = DisposalMethod.Background) := by
  have hmem : (⟨1, 0, true, [⟨0, 0, 0, 0⟩], [5], false, DisposalMethod.Background, 0 + 1, false⟩ : QuantizeMessage)
      ∈ quantizeFrames [⟨1, 0, 1, [⟨0, 0, 0, 0⟩], [5]⟩] := by
    show _ ∈ quantizeGo true none false 0 _ []
    simp [quantizeGo]
  refine ⟨hmem, ?_⟩
  exact (claim10_final_frame_dispose ⟨1, 0, 1, [⟨0, 0, 0, 0⟩], [5]⟩ [] _ hmem rfl).1.mpr (by decide)

/-- C2: whenever the next frame's image is bit-identical to the current
frame's, the current frame is dropped entirely (its ordinal never reaches
quantization); the importance map of the first frame of the identical
series is retained and used by the surviving frame, whose end-PTS is the
next non-duplicate frame's PTS, so the dropped display time accumulates
into the delay of that message. -/
theorem claim2_identical_frames (d1 d2 d3 : DiffMessage) (rest : List DiffMessage)
    (fht : Bool) (pk : Bool) (fi : Nat)
    (h1 : d1.image = d2.image)
    (h2 : d2.image ≠ d3.image)
    (hord : d1.ordinal_frame_number ∉ (d2 :: d3 :: rest).map (·.ordinal_frame_number))
    (hemit : (!pk || d1.importance_map.any (fun px => decide (0 < px))) = true) :
    (quantizeGo fht none pk fi d1 (d2 :: d3 :: rest) =
      quantizeGo fht (some d1.importance_map) pk fi d2 (d3 :: rest)) ∧
    (d1.ordinal_frame_number ∉
      (quantizeGo fht none pk fi d1 (d2 :: d3 :: rest)).map (·.ordinal_frame_number)) ∧
    (quantizeGo fht none pk fi d1 (d2 :: d3 :: rest) =
      { ordinal_frame_number := d2.ordinal_frame_number
        frame_index := fi
        first_frame_has_transparency := fht
        image := d2.image
        importance_map := d1.importance_map
        prev_frame_keeps := pk
        dispose := chooseDispose d3.image d2.image
        end_pts := d3.pts
        has_next_frame := true } ::
      quantizeGo fht none (decide (chooseDispose d3.image d2.image = DisposalMethod.Keep))
        (fi + 1) d3 rest) := by
  have hskip : quantizeGo fht none pk fi d1 (d2 :: d3 :: rest) =
      quantizeGo fht (some d1.importance_map) pk fi d2 (d3 :: rest) := by
    have h1' : d2.image = d1.image := h1.symm
    simp [quantizeGo, h1']
  have hstep : quantizeGo fht (some d1.importance_map) pk fi d2 (d3 :: rest) =
      { ordinal_frame_number := d2.ordinal_frame_number
        frame_index := fi
        first_frame_has_transparency := fht
        image := d2.image
        importance_map := d1.importance_map
        prev_frame_keeps := pk
        dispose := chooseDispose d3.image d2.image
        end_pts := d3.pts
        has_next_frame := true } ::
      quantizeGo fht none (decide (chooseDispose d3.image d2.image = DisposalMethod.Keep))
        (fi + 1) d3 rest := by
    have h2' : ¬ (d3.image = d2.image) := fun hh => h2 hh.symm
    simp [quantizeGo, h2', hemit]
  refine ⟨hskip, ?_, hskip.trans hstep⟩
  rw [hskip, hstep]
  intro hmem
  simp only [List.map_cons, List.mem_cons] at hmem
  rcases hmem with h | h
  · exact hord (by simp [h])
  · obtain ⟨msg, hmsg, heq⟩ := List.mem_map.mp (by simpa using h)
    have := quantizeGo_ordinal_subset rest _ _ _ _ d3 msg hmsg
    rw [heq] at this
    simp only [List.mem_cons] at this
    apply hord
    simp only [List.map_cons, List.mem_cons]
    tauto

/-- Witness for C2 at a concrete three-frame input: frames 1 and 2 share an
image, frame 3 differs; frame 1 is dropped, frame 2 survives carrying frame
1's importance map and frame 3's PTS as its end-PTS. -/
theorem claim2_identical_frames_witness :
    quantizeGo false none false 0
        ⟨1, 0, 1, [⟨3, 3, 3, 255⟩], [9]⟩
        [⟨2, 1, 1, [⟨3, 3, 3, 255⟩], [0]⟩, ⟨3, 2, 1, [⟨4, 4, 4, 255⟩], [1]⟩] =
      { ordinal_frame_number := 2
        frame_index := 0
        first_frame_has_transparency := false
        image := [⟨3, 3, 3, 255⟩]
        importance_map := [9]
        prev_frame_keeps := false
        dispose := chooseDispose [⟨4, 4, 4, 255⟩] [⟨3, 3, 3, 255⟩]
        end_pts := (2 : ℚ)
        has_next_frame := true } ::
      quantizeGo false none
        (decide (chooseDispose [⟨4, 4, 4, 255⟩] [⟨3, 3, 3, 255⟩] = DisposalMethod.Keep)) 1
        ⟨3, 2, 1, [⟨4, 4, 4, 255⟩], [1]⟩ [] :=
  (claim2_identical_frames
    ⟨1, 0, 1, [⟨3, 3, 3, 255⟩], [9]⟩
    ⟨2, 1, 1, [⟨3, 3, 3, 255⟩], [0]⟩
    ⟨3, 2, 1, [⟨4, 4, 4, 255⟩], [1]⟩ [] false false 0
    (by decide) (by decide) (by decide) (by decide)).2.2

/-! ## First-frame PTS rule (src/lib.rs, `Writer::make_diffs`)

```
let mut last_frame_duration = if first_frame.presentation_timestamp > 1. / 100. {
    LastFrameDuration::FixedOffset(first_frame.presentation_timestamp)
} else {
    LastFrameDuration::FrameRate(0.)
};
...
let pts = raw_pts - last_frame_duration.shift_every_pts_by();
if let LastFrameDuration::FrameRate(duration) = &mut last_frame_duration {
    *duration = pts - last_frame_pts;
}
last_frame_pts = pts;
denoiser.push_frame(..., (ordinal_frame_number, pts, last_frame_duration))
```
-/

inductive LastFrameDuration where
  | FixedOffset (v : ℚ)
  | FrameRate (v : ℚ)
deriving DecidableEq

def LastFrameDuration.value : LastFrameDuration → ℚ
  | .FixedOffset v => v
  | .FrameRate v => v

def LastFrameDuration.shift_every_pts_by : LastFrameDuration → ℚ
  | .FixedOffset offset => offset
  | .FrameRate _ => 0

/-- The per-frame metadata loop: given the running duration state and the
previous (shifted) PTS, produce the `(pts, last_frame_duration)` metadata
attached to each frame pushed into the denoiser. -/
def makeDiffsMetaGo (dur : LastFrameDuration) (lastPts : ℚ) :
    List ℚ → List (ℚ × LastFrameDuration)
  | [] => []
  | raw :: rest =>
    let pts := raw - dur.shift_every_pts_by
    let dur2 := match dur with
      | .FrameRate _ => LastFrameDuration.FrameRate (pts - lastPts)
      | d => d
    (pts, dur2) :: makeDiffsMetaGo dur2 pts rest

/-- `make_diffs`' PTS handling: the duration mode is decided by the first
frame's raw PTS (`> 1/100` selects the fixed-offset mode). -/
def makeDiffsMeta : List ℚ → List (ℚ × LastFrameDuration)
  | [] => []
  | p0 :: rest =>
    let init := if p0 > 1 / 100 then LastFrameDuration.FixedOffset p0
                else LastFrameDuration.FrameRate 0
    makeDiffsMetaGo init 0 (p0 :: rest)

/-- Spec-side description of the frame-rate mode: the duration tracks the
running inter-frame delta, with the previous PTS starting at 0 and no
shift applied. -/
def specRunningDelta (prev : ℚ) : List ℚ → List (ℚ × LastFrameDuration)
  | [] => []
  | p :: rest => (p, .FrameRate (p - prev)) :: specRunningDelta p rest

theorem makeDiffsMetaGo_fixed (off lastPts : ℚ) (l : List ℚ) :
    makeDiffsMetaGo (.FixedOffset off) lastPts l =
      l.map (fun p => (p - off, .FixedOffset off)) := by
  induction l generalizing lastPts with
  | nil => rfl
  | cons p rest ih => simp [makeDiffsMetaGo, LastFrameDuration.shift_every_pts_by, ih]

theorem makeDiffsMetaGo_framerate (x lastPts : ℚ) (l : List ℚ) :
    makeDiffsMetaGo (.FrameRate x) lastPts l = specRunningDelta lastPts l := by
  induction l generalizing x lastPts with
  | nil => rfl
  | cons p rest ih =>
    simp [makeDiffsMetaGo, LastFrameDuration.shift_every_pts_by, specRunningDelta, ih]

/-- C5: if the first frame's raw PTS exceeds 1/100 s it is re-interpreted
as a shift subtracted from every frame's PTS, the constant duration value
carried by every frame — in particular the trailing duration of the last
frame — equals that shift; otherwise no shift is applied and the duration
tracks the running inter-frame delta (previous PTS starting at 0). -/
theorem claim5_first_pts_shift (p0 : ℚ) (ps : List ℚ) :
    (p0 > 1 / 100 →
      makeDiffsMeta (p0 :: ps) =
        (p0 :: ps).map (fun p => (p - p0, .FixedOffset p0)) ∧
      (makeDiffsMeta (p0 :: ps)).getLast?.map (fun q => q.2.value) = some p0) ∧
    (¬ (p0 > 1 / 100) →
      makeDiffsMeta (p0 :: ps) = specRunningDelta 0 (p0 :: ps)) := by
  constructor
  · intro hgt
    have hmain : makeDiffsMeta (p0 :: ps) =
        (p0 :: ps).map (fun p => (p - p0, .FixedOffset p0)) := by
      simp only [makeDiffsMeta, if_pos hgt]
      exact makeDiffsMetaGo_fixed p0 0 (p0 :: ps)
    refine ⟨hmain, ?_⟩
    rw [hmain]
    have hlast : ∀ (l : List ℚ), l ≠ [] →
        ((l.map (fun p => ((p - p0 : ℚ), LastFrameDuration.FixedOffset p0))).getLast?).map
          (fun q => q.2.value) = some p0 := by
      intro l hl
      induction l with
      | nil => exact absurd rfl hl
      | cons q t iht =>
        cases t with
        | nil => simp [LastFrameDuration.value]
        | cons a b =>
          rw [List.map_cons, List.map_cons, List.getLast?_cons_cons]
          simpa using iht (by simp)
    exact hlast (p0 :: ps) (by simp)
  · intro hle
    simp only [makeDiffsMeta, if_neg hle]
    exact makeDiffsMetaGo_framerate 0 0 (p0 :: ps)

/-- Witness for C5 in both modes: first PTS 1/2 (> 1/100) shifts everything
and carries the constant trailing duration 1/2; first PTS 0 tracks the
running delta. -/
theorem claim5_first_pts_shift_witness :
    (makeDiffsMeta [(1/2 : ℚ), 1] =
      [((1/2 : ℚ) - 1/2, .FixedOffset (1/2)), ((1 : ℚ) - 1/2, .FixedOffset (1/2))]) ∧
    (makeDiffsMeta [(0 : ℚ), 1] = specRunningDelta 0 [(0 : ℚ), 1]) := by
  constructor
  · have h := (claim5_first_pts_shift (1/2 : ℚ) [1]).1 (by norm_num)
    simpa using h.1
  · exact (claim5_first_pts_shift (0 : ℚ) [1]).2 (by norm_num)

/-! ## Ordered queue (src/ordqueue.rs)

`OrdQueue::push` sends `ReverseTuple(index, item)` over a channel;
`OrdQueueIter::next` holds a `BinaryHeap<ReverseTuple<T>>` plus a
`next_index` counter, receives until the expected index is on top, then
pops the heap minimum (by index — `ReverseTuple` reverses the order so
the max-heap yields the least index).

The channel is modelled by the list of sent items in arrival order
(`pending`), quantified over all orders; the heap is modelled by a list
with a pop-minimum operation (`BinaryHeap` leaves ties unspecified, but
the claim assumes distinct indices, where any tie-break is equivalent). -/

/-- Pop an element with the least index (leftmost among equals). -/
def heapPopMin {α : Type} : List (Nat × α) → Option ((Nat × α) × List (Nat × α))
  | [] => none
  | x :: xs =>
    match heapPopMin xs with
    | none => some (x, [])
    | some (y, ys) => if x.1 ≤ y.1 then some (x, xs) else some (y, x :: ys)

/-- `peek().map(|i| i.0)`: the index the next pop would return. -/
def heapPeekIdx {α : Type} (h : List (Nat × α)) : Option Nat :=
  (heapPopMin h).map (fun p => p.1.1)

/-- One call to `OrdQueueIter::next`: pull from the channel until the
expected index is on top of the heap (or the channel is closed and
drained), then pop; returns the item (if any) and the new
`(pending, heap, next_index)` state. -/
def oqNext {α : Type} : List (Nat × α) → List (Nat × α) → Nat →
    Option (Nat × α) × List (Nat × α) × List (Nat × α) × Nat
  | [], heap, ni =>
    -- channel closed: whether or not the expected index is on top, the
    -- `while` loop ends (peek hit or `Err(_)` break) and the heap is popped
    match heapPopMin heap with
    | some (p, h2) => (some p, [], h2, ni + 1)
    | none => (none, [], heap, ni)
  | q :: qs, heap, ni =>
    if heapPeekIdx heap = some ni then
      match heapPopMin heap with
      | some (p, h2) => (some p, q :: qs, h2, ni + 1)
      | none => (none, q :: qs, heap, ni)
    else
      oqNext qs (q :: heap) ni

/-- Iterate `next` until it returns `None`, collecting the emitted items. -/
def oqDrain {α : Type} : Nat → List (Nat × α) → List (Nat × α) → Nat → List (Nat × α)
  | 0, _, _, _ => []
  | fuel + 1, pending, heap, ni =>
    match oqNext pending heap ni with
    | (some p, pending2, heap2, ni2) => p :: oqDrain fuel pending2 heap2 ni2
    | (none, _, _, _) => []

theorem heapPopMin_eq_none {α : Type} (h : List (Nat × α)) :
    heapPopMin h = none ↔ h = [] := by
  cases h with
  | nil => simp [heapPopMin]
  | cons x xs =>
    simp only [heapPopMin]
    constructor
    · intro hc
      cases hrec : heapPopMin xs with
      | none => rw [hrec] at hc; exact Option.noConfusion hc
      | some q =>
        rw [hrec] at hc
        obtain ⟨y, ys⟩ := q
        dsimp at hc
        split at hc <;> exact Option.noConfusion hc
    · intro hc; exact List.noConfusion hc

theorem heapPopMin_perm {α : Type} (h : List (Nat × α)) (p : Nat × α)
    (h2 : List (Nat × α)) (hp : heapPopMin h = some (p, h2)) :
    h.Perm (p :: h2) := by
  induction h generalizing p h2 with
  | nil => exact Option.noConfusion hp
  | cons x xs ih =>
    simp only [heapPopMin] at hp
    cases hrec : heapPopMin xs with
    | none =>
      rw [hrec] at hp
      have hxs : xs = [] := (heapPopMin_eq_none xs).mp hrec
      subst hxs
      obtain ⟨h1, h2'⟩ := Prod.mk.injEq .. ▸ (Option.some.injEq .. ▸ hp)
      subst h1; subst h2'
      exact List.Perm.refl _
    | some q =>
      obtain ⟨y, ys⟩ := q
      rw [hrec] at hp
      dsimp at hp
      split at hp
      · obtain ⟨h1, h2'⟩ := Prod.mk.injEq .. ▸ (Option.some.injEq .. ▸ hp)
        subst h1; subst h2'
        exact List.Perm.refl _
      · obtain ⟨h1, h2'⟩ := Prod.mk.injEq .. ▸ (Option.some.injEq .. ▸ hp)
        subst h1; subst h2'
        exact ((ih y ys hrec).cons x).trans (List.Perm.swap y x ys)

theorem heapPopMin_le {α : Type} (h : List (Nat × α)) (p : Nat × α)
    (h2 : List (Nat × α)) (hp : heapPopMin h = some (p, h2)) :
    ∀ q ∈ h, p.1 ≤ q.1 := by
  induction h generalizing p h2 with
  | nil => exact Option.noConfusion hp
  | cons x xs ih =>
    simp only [heapPopMin] at hp
    cases hrec : heapPopMin xs with
    | none =>
      rw [hrec] at hp
      have hxs : xs = [] := (heapPopMin_eq_none xs).mp hrec
      subst hxs
      obtain ⟨h1, _⟩ := Prod.mk.injEq .. ▸ (Option.some.injEq .. ▸ hp)
      subst h1
      intro q hq
      simp only [List.mem_singleton] at hq
      subst hq; exact le_refl _
    | some r =>
      obtain ⟨y, ys⟩ := r
      rw [hrec] at hp
      dsimp at hp
      split at hp <;>
        obtain ⟨h1, _⟩ := Prod.mk.injEq .. ▸ (Option.some.injEq .. ▸ hp) <;> subst h1
      · intro q hq
        rcases List.mem_cons.mp hq with hq | hq
        · subst hq; exact le_refl _
        · exact le_trans (by assumption) (ih y ys hrec q hq)
      · intro q hq
        rcases List.mem_cons.mp hq with hq | hq
        · subst hq
          exact le_of_not_le (by assumption)
        · exact ih y ys hrec q hq

/-- One `next` call on a state whose outstanding indices are exactly
`[ni, ni+k)` emits the item with index exactly `ni` and leaves a state
with outstanding indices `[ni+1, ni+k)`. -/
theorem oqNext_step {α : Type} (pending : List (Nat × α)) :
    ∀ (heap : List (Nat × α)) (ni k : Nat), 0 < k →
    ((heap ++ pending).map Prod.fst).Perm (List.range' ni k) →
    ∃ p pending2 heap2,
      oqNext pending heap ni = (some p, pending2, heap2, ni + 1) ∧
      p.1 = ni ∧
      (heap ++ pending).Perm (p :: (heap2 ++ pending2)) ∧
      ((heap2 ++ pending2).map Prod.fst).Perm (List.range' (ni + 1) (k - 1)) := by
  induction pending with
  | nil =>
    intro heap ni k hk hperm
    rw [List.append_nil] at hperm
    have hne : heap ≠ [] := by
      intro hcon
      subst hcon
      have := hperm.length_eq
      simp [List.length_range'] at this
      omega
    cases hpop : heapPopMin heap with
    | none => exact absurd ((heapPopMin_eq_none heap).mp hpop) hne
    | some pr =>
      obtain ⟨p, h2⟩ := pr
      have hpm := heapPopMin_perm heap p h2 hpop
      have hple := heapPopMin_le heap p h2 hpop
      have hpmem : p ∈ heap := hpm.mem_iff.mpr (List.mem_cons_self ..)
      have hpidx : p.1 ∈ List.range' ni k :=
        hperm.mem_iff.mp (List.mem_map_of_mem Prod.fst hpmem)
      have hge : ni ≤ p.1 := (List.mem_range'_1.mp hpidx).1
      have hni_mem : ni ∈ List.range' ni k := List.mem_range'_1.mpr ⟨le_refl ni, by omega⟩
      have hni_in : ni ∈ heap.map Prod.fst := hperm.mem_iff.mpr hni_mem
      obtain ⟨q, hqmem, hqeq⟩ := List.mem_map.mp hni_in
      have hle : p.1 ≤ ni := hqeq ▸ hple q hqmem
      have hpeq : p.1 = ni := le_antisymm hle hge
      refine ⟨p, [], h2, ?_, hpeq, by simpa using hpm, ?_⟩
      · simp [oqNext, hpop]
      · have hmapperm : (p.1 :: (h2 ++ ([] : List (Nat × α))).map Prod.fst).Perm
            (List.range' ni k) := by
          simpa using (hperm.symm.trans (hpm.map Prod.fst)).symm
        rw [hpeq] at hmapperm
        have hk' : k = (k - 1) + 1 := by omega
        rw [hk', List.range'_succ] at hmapperm
        exact hmapperm.cons_inv
  | cons q qs ih =>
    intro heap ni k hk hperm
    by_cases hpk : heapPeekIdx heap = some ni
    · cases hpop : heapPopMin heap with
      | none => simp [heapPeekIdx, hpop] at hpk
      | some pr =>
        obtain ⟨p, h2⟩ := pr
        have hpeq : p.1 = ni := by
          simp [heapPeekIdx, hpop] at hpk
          exact hpk
        have hpm := heapPopMin_perm heap p h2 hpop
        have hstep : (heap ++ q :: qs).Perm (p :: (h2 ++ q :: qs)) := by
          have := hpm.append_right (q :: qs)
          simpa using this
        refine ⟨p, q :: qs, h2, ?_, hpeq, hstep, ?_⟩
        · simp [oqNext, hpk, hpop]
        · have hmapperm : (p.1 :: (h2 ++ q :: qs).map Prod.fst).Perm
              (List.range' ni k) := by
            have := (hstep.map Prod.fst).symm.trans hperm
            simpa using this
          rw [hpeq] at hmapperm
          have hk' : k = (k - 1) + 1 := by omega
          rw [hk', List.range'_succ] at hmapperm
          exact hmapperm.cons_inv
    · have hmid : ((q :: heap) ++ qs).Perm (heap ++ q :: qs) := by
        have : (heap ++ q :: qs).Perm (q :: (heap ++ qs)) := List.perm_middle
        exact this.symm
      have hperm' : (((q :: heap) ++ qs).map Prod.fst).Perm (List.range' ni k) :=
        (hmid.map Prod.fst).trans hperm
      obtain ⟨p, pending2, heap2, hnext, hpeq, hperm2, hmap2⟩ :=
        ih (q :: heap) ni k hk hperm'
      refine ⟨p, pending2, heap2, ?_, hpeq, hmid.symm.trans hperm2, hmap2⟩
      simpa [oqNext, hpk] using hnext

/-- Draining the iterator from a state with outstanding indices `[ni, ni+k)`
yields exactly those indices, in increasing order, each carrying its item. -/
theorem oqDrain_spec {α : Type} (k : Nat) :
    ∀ (pending heap : List (Nat × α)) (ni : Nat),
    ((heap ++ pending).map Prod.fst).Perm (List.range' ni k) →
    (oqDrain (k + 1) pending heap ni).map Prod.fst = List.range' ni k ∧
    (oqDrain (k + 1) pending heap ni).Perm (heap ++ pending) := by
  induction k with
  | zero =>
    intro pending heap ni hperm
    have : heap ++ pending = [] := by
      have hmap : (heap ++ pending).map Prod.fst = [] := hperm.eq_nil
      simpa using hmap
    obtain ⟨hh, hp⟩ := List.append_eq_nil.mp this
    subst hh; subst hp
    simp [oqDrain, oqNext, heapPopMin]
  | succ k ih =>
    intro pending heap ni hperm
    obtain ⟨p, pending2, heap2, hnext, hpeq, hperm2, hmap2⟩ :=
      oqNext_step pending heap ni (k + 1) (by omega) hperm
    simp only [Nat.add_sub_cancel] at hmap2
    obtain ⟨ih1, ih2⟩ := ih pending2 heap2 (ni + 1) hmap2
    constructor
    · rw [oqDrain, hnext]
      simp only [List.map_cons, ih1, hpeq, List.range'_succ]
    · rw [oqDrain, hnext]
      exact ((ih2.cons p).trans hperm2.symm)

/-- C8: for any schedule delivering, in any order, `n` items with distinct
indices `0..n-1`, the ordered-queue receiver yields exactly the `n` pushed
items, its emitted index sequence is `0, 1, …, n-1` (strictly increasing,
so no item's index is ever smaller than a previously emitted one). -/
theorem claim8_ordered_channel {α : Type} (sent : List (Nat × α)) (n : Nat)
    (h : (sent.map Prod.fst).Perm (List.range n)) :
    ((oqDrain (n + 1) sent [] 0).map Prod.fst = List.range n) ∧
    ((oqDrain (n + 1) sent [] 0).map Prod.fst).Pairwise (· < ·) ∧
    (oqDrain (n + 1) sent [] 0).Perm sent := by
  have h' : ((([] : List (Nat × α)) ++ sent).map Prod.fst).Perm (List.range' 0 n) := by
    simpa [List.range_eq_range'] using h
  obtain ⟨h1, h2⟩ := oqDrain_spec n sent [] 0 h'
  rw [← List.range_eq_range'] at h1
  refine ⟨h1, ?_, by simpa using h2⟩
  rw [h1]
  exact List.pairwise_lt_range n

/-- Witness for C8: the out-of-order schedule `[(1,10),(0,20),(2,30)]` is
re-serialized into index order `[(0,20),(1,10),(2,30)]`. -/
theorem claim8_ordered_channel_witness :
    ((([(1, 10), (0, 20), (2, 30)] : List (Nat × Nat)).map Prod.fst).Perm (List.range 3)) ∧
    ((oqDrain 4 [(1, 10), (0, 20), (2, 30)] [] 0).map Prod.fst = List.range 3) ∧
    (oqDrain 4 ([(1, 10), (0, 20), (2, 30)] : List (Nat × Nat)) [] 0 =
      [(0, 20), (1, 10), (2, 30)]) :=
  ⟨by decide, (claim8_ordered_channel [(1, 10), (0, 20), (2, 30)] 3 (by decide)).1, by decide⟩

/-! ## Denoiser (src/denoise.rs)

Per-pixel state `Acc` holds ring buffers of the last `LOOKAHEAD = 5`
samples (shifted on append), an alpha bitmask, the committed background
and its stay counters. u8/u32 arithmetic is Nat with explicit saturation;
signed squares in `color_diff` go through ℤ. -/

def LOOKAHEAD : Nat := 5

/-- u32 saturation bound for `saturating_mul`. -/
def U32_MAX : Nat := 2 ^ 32 - 1

structure Acc where
  r : List Nat
  g : List Nat
  b : List Nat
  blur : List RGB8
  alpha_bits : Nat
  can_stay_for : Nat
  stayed_for : Nat
  bg_set : RGBA8
deriving DecidableEq

/-- `Acc::get`: actual pixel + blurred pixel, `None` when that slot was
transparent (or out of range). -/
def Acc.get (acc : Acc) (idx : Nat) : Option (RGB8 × RGB8) :=
  if LOOKAHEAD ≤ idx then none
  else if acc.alpha_bits.testBit idx then none
  else some (⟨acc.r.getD idx 0, acc.g.getD idx 0, acc.b.getD idx 0⟩,
             acc.blur.getD idx ⟨0, 0, 0⟩)

/-- The Rust shift loop `for n in 1..LOOKAHEAD { a[n-1] = a[n] }` turns
`[a0,a1,a2,a3,a4]` into `[a1,a2,a3,a4,a4]` (the last slot keeps its old
value until overwritten). -/
def shift5 {β : Type} (l : List β) (dflt : β) : List β :=
  l.drop 1 ++ [l.getD (LOOKAHEAD - 1) dflt]

/-- `Acc::append`: shift the rings, shift the alpha mask; a sample with
`a < 128` only sets the new mask bit (the ring keeps stale data),
otherwise the last slot is overwritten. -/
def Acc.append (acc : Acc) (val : RGBA8) (val_blur : RGB8) : Acc :=
  let r := shift5 acc.r 0
  let g := shift5 acc.g 0
  let b := shift5 acc.b 0
  let blur := shift5 acc.blur ⟨0, 0, 0⟩
  let bits := acc.alpha_bits >>> 1
  if val.a < 128 then
    { acc with
      r := r
      g := g
      b := b
      blur := blur
      alpha_bits := bits ||| (1 <<< (LOOKAHEAD - 1)) }
  else
    { acc with
      r := r.set (LOOKAHEAD - 1) val.r
      g := g.set (LOOKAHEAD - 1) val.g
      b := b.set (LOOKAHEAD - 1) val.b
      blur := blur.set (LOOKAHEAD - 1) val_blur
      alpha_bits := bits }

/-- `color_diff`: weighted squared channel difference (weights 2,3,1),
computed on i32 differences, non-negative so the u32 cast is exact. -/
def color_diff (x y : RGB8) : Nat :=
  (((x.r : ℤ) - y.r) ^ 2 * 2 + ((x.g : ℤ) - y.g) ^ 2 * 3 + ((x.b : ℤ) - y.b) ^ 2).toNat

/-- `cohort`: cheap binary split of colors for the flip-flop threshold. -/
def cohort (color : RGB8) : Bool :=
  (decide (color.g < color.r / 2)) != (decide (127 < color.b))

/-- `pixel_importance`: `min + (exceeds.saturating_mul(max) /
threshold.saturating_mul(48)).min(max)` on u32, with `saturating_sub`
for `exceeds`. (All call sites have `threshold > 0`.) -/
def pixel_importance (diff_with_bg threshold : Nat) (mn mx : Nat) : Nat :=
  let exceeds := diff_with_bg - threshold
  mn + min (min (exceeds * mx) U32_MAX / min (threshold * 48) U32_MAX) mx

def avg8 (a b : Nat) : Nat := (a + b) / 2

/-- Insertion sort, standing in for `sort_unstable` on ≤ 5 naturals. -/
def insSorted (x : Nat) : List Nat → List Nat
  | [] => [x]
  | y :: ys => if x ≤ y then x :: y :: ys else y :: insSorted x ys

def sortNat (l : List Nat) : List Nat := l.foldr insSorted []

/-- `get_median` of the first `len` ring entries (`len ∈ 1..=5`). -/
def get_median (src : List Nat) (len : Nat) : Nat :=
  match len with
  | 1 => src.getD 0 0
  | 2 => avg8 (src.getD 0 0) (src.getD 1 0)
  | 3 => (sortNat (src.take 3)).getD 1 0
  | 4 =>
    let tmp := sortNat (src.take 4)
    avg8 (tmp.getD 1 0) (tmp.getD 2 0)
  | 5 => (sortNat (src.take 5)).getD 2 0
  | _ => 0

/-- `Acc::next_pixel`: decides the emitted pixel (for frame T−4 relative
to the newest) and its importance, updating the committed background and
the stay counters. Returns the updated state with `(pixel, importance)`. -/
def Acc.next_pixel (acc : Acc) (threshold : Nat) (odd_frame : Bool) :
    Acc × RGBA8 × Nat :=
  match acc.get 0 with
  | some (curr, curr_blur) =>
    let my_turn := cohort curr != odd_frame
    let threshold := if my_turn then threshold else threshold * 2
    let diff_with_bg :=
      if 0 < acc.bg_set.a then
        let bg := color_diff acc.bg_set.rgb curr
        let bg_blur := color_diff acc.bg_set.rgb curr_blur
        if bg < bg_blur then bg else (bg + bg_blur) / 2
      else 1 <<< 20
    if acc.stayed_for < acc.can_stay_for then
      let acc := { acc with stayed_for := acc.stayed_for + 1 }
      let mx := if 1 < acc.stayed_for then 0
                else [0, 40, 80, 100, 110].getD (min acc.can_stay_for 4) 0
      let mn := if threshold ≤ 300 ∧ acc.stayed_for ≤ 3 then 1
                else if 300 ≤ threshold ∧ threshold ≤ 500 ∧ acc.stayed_for ≤ 2 then 1
                else if 400 ≤ threshold ∧ threshold ≤ 900 ∧ acc.stayed_for ≤ 1 then 1
                else 0
      (acc, acc.bg_set, pixel_importance diff_with_bg threshold mn mx)
    else if diff_with_bg < threshold then
      (acc, acc.bg_set, 0)
    else
      let stays_frames := ((List.range' 1 (LOOKAHEAD - 1)).takeWhile (fun i =>
        match acc.get i with
        | some (c, blurred) =>
          decide (color_diff c curr < threshold) ||
            decide (color_diff blurred curr_blur < threshold)
        | none => false)).length
      if stays_frames = 0 then
        let acc := { acc with bg_set := curr.alpha 255 }
        (acc, acc.bg_set, pixel_importance diff_with_bg threshold 10 110)
      else
        let smoothed_curr : RGB8 :=
          ⟨get_median acc.r (stays_frames + 1),
           get_median acc.g (stays_frames + 1),
           get_median acc.b (stays_frames + 1)⟩
        let imp :=
          if stays_frames ≤ 1 then pixel_importance diff_with_bg threshold 5 80
          else if stays_frames = 2 then pixel_importance diff_with_bg threshold 15 190
          else pixel_importance diff_with_bg threshold 50 205
        let acc := { acc with
          bg_set := smoothed_curr.alpha 255
          can_stay_for := min stays_frames (LOOKAHEAD - 1)
          stayed_for := 0 }
        (acc, acc.bg_set, imp)
  | none =>
    if 0 < acc.bg_set.a then
      ({ acc with bg_set := { acc.bg_set with a := 0 }, can_stay_for := 0 },
       ⟨0, 0, 0, 0⟩, 1)
    else
      (acc, ⟨0, 0, 0, 0⟩, 0)

structure WrongSizeError
deriving DecidableEq

inductive Denoised (T : Type) where
  | NotYet
  | Done
  | Frame (frame : Img RGBA8) (importance_map : Img Nat) (meta : T)
  | MetaMissing
deriving DecidableEq

structure Denoiser (T : Type) where
  frames : Nat
  threshold : Nat
  splatW : Nat
  splatH : Nat
  splat : List Acc
  /-- `VecDeque`: `push_front` is cons, `pop_back` takes the last element. -/
  processed : List (Img RGBA8 × Img Nat)
  metadatas : List T
deriving DecidableEq

/-- The cleared per-pixel state: `alpha_bits = (1 << LOOKAHEAD) - 1`
marks all five ring slots transparent. -/
def clearAcc : Acc :=
  { r := List.replicate LOOKAHEAD 0
    g := List.replicate LOOKAHEAD 0
    b := List.replicate LOOKAHEAD 0
    blur := List.replicate LOOKAHEAD ⟨0, 0, 0⟩
    alpha_bits := (1 <<< LOOKAHEAD) - 1
    bg_set := ⟨0, 0, 0, 0⟩
    stayed_for := 0
    can_stay_for := 0 }

/-- `Denoiser::new`: `width.checked_mul(height)` fails on usize overflow;
`threshold = (55 - quality/2)^2` in u32 (no underflow for the validated
quality range 1..=100). -/
def Denoiser.new (T : Type) (width height quality : Nat) :
    Except WrongSizeError (Denoiser T) :=
  if width * height < 2 ^ 64 then
    .ok { frames := 0
          threshold := (55 - quality / 2) ^ 2
          splatW := width
          splatH := height
          splat := List.replicate (width * height) clearAcc
          processed := []
          metadatas := [] }
  else .error ⟨⟩

/-- `quick_append`: append each pixel (and its blurred companion) to its
per-pixel ring without producing output. -/
def quickAppendList (splat : List Acc) (fr : List RGBA8) (bl : List RGB8) : List Acc :=
  (splat.zip (fr.zip bl)).map fun q => q.1.append q.2.1 q.2.2

/-- `Denoiser::push_frame`. -/
def Denoiser.push_frame {T : Type} (d : Denoiser T) (frame : Img RGBA8)
    (frame_blurred : Img RGB8) (frame_metadata : T) :
    Except WrongSizeError (Denoiser T) :=
  if frame.width ≠ d.splatW ∨ frame.height ≠ d.splatH then .error ⟨⟩
  else
    let d := { d with
      metadatas := frame_metadata :: d.metadatas
      frames := d.frames + 1 }
    if d.frames < LOOKAHEAD then
      .ok { d with splat := quickAppendList d.splat frame.data frame_blurred.data }
    else
      let stepped := (d.splat.zip (frame.data.zip frame_blurred.data)).map fun q =>
        (q.1.append q.2.1 q.2.2).next_pixel d.threshold (decide (d.frames &&& 1 ≠ 0))
      let median := Img.mk frame.width frame.height (stepped.map fun q => q.2.1)
      let imp_map := Img.mk frame.width frame.height (stepped.map fun q => q.2.2)
      .ok { d with
        splat := stepped.map fun q => q.1
        processed := (median, imp_map) :: d.processed }

/-- One iteration of the `flush` loop: feed a fully-transparent dummy
sample to every pixel, then (post-increment) push the produced frame only
once the pipeline is full. -/
def Denoiser.flushStep {T : Type} (d : Denoiser T) : Denoiser T :=
  let stepped := d.splat.map fun acc =>
    (acc.append ⟨0, 0, 0, 0⟩ ⟨0, 0, 0⟩).next_pixel d.threshold (decide (d.frames &&& 1 ≠ 0))
  let median1 := Img.mk d.splatW d.splatH (stepped.map fun q => q.2.1)
  let imp_map1 := Img.mk d.splatW d.splatH (stepped.map fun q => q.2.2)
  let d2 := { d with splat := stepped.map fun q => q.1, frames := d.frames + 1 }
  if LOOKAHEAD ≤ d2.frames then
    { d2 with processed := (median1, imp_map1) :: d2.processed }
  else d2

theorem flushStep_metadatas {T : Type} (d : Denoiser T) :
    (d.flushStep).metadatas = d.metadatas := by
  unfold Denoiser.flushStep
  dsimp only
  split <;> rfl

theorem flushStep_frames {T : Type} (d : Denoiser T) :
    (d.flushStep).frames = d.frames + 1 := by
  unfold Denoiser.flushStep
  dsimp only
  split <;> rfl

theorem flushStep_processed_length {T : Type} (d : Denoiser T) :
    (d.flushStep).processed.length =
      if LOOKAHEAD ≤ d.frames + 1 then d.processed.length + 1
      else d.processed.length := by
  unfold Denoiser.flushStep
  dsimp only
  split
  · simp
  · rfl

/-- `Denoiser::flush`: `while processed.len() < metadatas.len()`. -/
def Denoiser.flush {T : Type} (d : Denoiser T) : Denoiser T :=
  if _h : d.processed.length < d.metadatas.length then
    Denoiser.flush d.flushStep
  else d
termination_by (d.metadatas.length - d.processed.length) + (LOOKAHEAD - d.frames)
decreasing_by
  rw [flushStep_metadatas, flushStep_frames, flushStep_processed_length]
  split <;> omega

/-- `VecDeque::pop_back` on a front-consed list. -/
def popBack {β : Type} : List β → Option (β × List β)
  | [] => none
  | [x] => some (x, [])
  | x :: y :: rest =>
    match popBack (y :: rest) with
    | some (z, zs) => some (z, x :: zs)
    | none => none

/-- `Denoiser::pop`: a popped frame takes its metadata from the back of
`metadatas` (`expect("meta")` is the `MetaMissing` case, unreachable
because pushes enqueue metadata first). -/
def Denoiser.pop {T : Type} (d : Denoiser T) : Denoised T × Denoiser T :=
  match popBack d.processed with
  | some ((frame, importance_map), proc2) =>
    match popBack d.metadatas with
    | some (meta, metas2) =>
      (.Frame frame importance_map meta,
       { d with
         processed := proc2
         metadatas := metas2 })
    | none => (.MetaMissing, { d with processed := proc2 })
  | none =>
    if d.metadatas.isEmpty then (.Done, d) else (.NotYet, d)

/-- Push a whole sequence of frames, stopping at the first error. -/
def Denoiser.pushAll {T : Type} (d : Denoiser T) :
    List (Img RGBA8 × Img RGB8 × T) → Except WrongSizeError (Denoiser T)
  | [] => .ok d
  | (f, b, m) :: rest => do
    let d2 ← d.push_frame f b m
    d2.pushAll rest

/-- What one successful push does to the observable queue state. -/
theorem push_frame_effect {T : Type} (d d2 : Denoiser T) (f : Img RGBA8)
    (b : Img RGB8) (m : T) (hp : d.push_frame f b m = .ok d2) :
    d2.metadatas = m :: d.metadatas ∧
    d2.frames = d.frames + 1 ∧
    d2.processed.length =
      (if d.frames + 1 < LOOKAHEAD then d.processed.length
       else d.processed.length + 1) := by
  unfold Denoiser.push_frame at hp
  split at hp
  · exact Except.noConfusion hp
  · dsimp only at hp
    split at hp <;> rename_i hc <;> injection hp with hp2 <;> subst hp2
    · exact ⟨rfl, rfl, by rw [if_pos (by simpa using hc)]⟩
    · refine ⟨rfl, rfl, ?_⟩
      rw [if_neg (by simpa using hc)]
      simp

/-- Closed form for a successful sequence of pushes: metadata accumulates
in reverse push order, the frame counter advances by one per push, and
the processed queue holds one output per push past the pipeline depth. -/
theorem pushAll_effect {T : Type} (inputs : List (Img RGBA8 × Img RGB8 × T)) :
    ∀ (d d2 : Denoiser T), d.pushAll inputs = .ok d2 →
    d2.metadatas = (inputs.map (fun x => x.2.2)).reverse ++ d.metadatas ∧
    d2.frames = d.frames + inputs.length ∧
    d2.processed.length =
      d.processed.length + (inputs.length - ((LOOKAHEAD - 1) - d.frames)) := by
  induction inputs with
  | nil =>
    intro d d2 hp
    injection hp with hp2
    subst hp2
    simp [LOOKAHEAD]
  | cons x rest ih =>
    intro d d2 hp
    obtain ⟨f, b, m⟩ := x
    simp only [Denoiser.pushAll, bind, Except.bind] at hp
    cases hstep : d.push_frame f b m with
    | error e => rw [hstep] at hp; exact Except.noConfusion hp
    | ok dm =>
      rw [hstep] at hp
      obtain ⟨hM, hF, hP⟩ := push_frame_effect d dm f b m hstep
      obtain ⟨ihM, ihF, ihP⟩ := ih dm d2 hp
      refine ⟨?_, ?_, ?_⟩
      · rw [ihM, hM]
        simp
      · rw [ihF, hF]
        simp only [List.length_cons]
        omega
      · rw [ihP, hP, hF]
        simp only [List.length_cons, LOOKAHEAD] at *
        split <;> rename_i hc <;> omega

/-- `flush` leaves the metadata queue alone and tops the processed queue
up to its length (given the processed queue never runs ahead). -/
theorem flush_spec {T : Type} : ∀ (m : Nat) (d : Denoiser T),
    (d.metadatas.length - d.processed.length) + (LOOKAHEAD - d.frames) ≤ m →
    d.processed.length ≤ d.metadatas.length →
    (d.flush).metadatas = d.metadatas ∧
    (d.flush).processed.length = d.metadatas.length := by
  intro m
  induction m with
  | zero =>
    intro d hm hle
    rw [Denoiser.flush]
    have hng : ¬ (d.processed.length < d.metadatas.length) := by omega
    rw [dif_neg hng]
    exact ⟨rfl, by omega⟩
  | succ m ih =>
    intro d hm hle
    rw [Denoiser.flush]
    by_cases hlt : d.processed.length < d.metadatas.length
    · rw [dif_pos hlt]
      have hM := flushStep_metadatas d
      have hF := flushStep_frames d
      have hP := flushStep_processed_length d
      have hm' : ((d.flushStep).metadatas.length - (d.flushStep).processed.length) +
          (LOOKAHEAD - (d.flushStep).frames) ≤ m := by
        rw [hM, hF, hP]
        split <;> rename_i hc <;> simp only [LOOKAHEAD] at * <;> omega
      have hle' : (d.flushStep).processed.length ≤ (d.flushStep).metadatas.length := by
        rw [hM, hP]
        split <;> omega
      obtain ⟨a, b⟩ := ih d.flushStep hm' hle'
      exact ⟨a.trans hM, by rw [b, hM]⟩
    · rw [dif_neg hlt]
      exact ⟨rfl, by omega⟩

theorem popBack_concat {β : Type} (l : List β) (x : β) :
    popBack (l ++ [x]) = some (x, l) := by
  induction l with
  | nil => rfl
  | cons a l ih =>
    cases hl : l ++ [x] with
    | nil => exact absurd hl (by simp)
    | cons mm ms =>
      show popBack (a :: (l ++ [x])) = some (x, a :: l)
      rw [hl]
      simp only [popBack]
      rw [← hl, ih]

/-- Observation of a single `pop` (the images are dropped, only the queue
behaviour matters for the lag claim). -/
inductive PopTag (T : Type) where
  | frame (meta : T)
  | notYet
  | done
  | metaMissing
deriving DecidableEq

def Denoised.tag {T : Type} : Denoised T → PopTag T
  | .Frame _ _ m => .frame m
  | .NotYet => .notYet
  | .Done => .done
  | .MetaMissing => .metaMissing

/-- Observations of `n` successive `pop` calls. -/
def popTags {T : Type} (d : Denoiser T) : Nat → List (PopTag T)
  | 0 => []
  | n + 1 =>
    let r := d.pop
    r.1.tag :: popTags r.2 n

/-- Draining a balanced denoiser (as many processed frames as metadata)
pops every metadata, oldest first, then reports `Done`. -/
theorem popTags_all {T : Type} : ∀ (n : Nat) (d : Denoiser T),
    d.processed.length = n → d.metadatas.length = n →
    popTags d (n + 1) = d.metadatas.reverse.map PopTag.frame ++ [PopTag.done] := by
  intro n
  induction n with
  | zero =>
    intro d hp hm
    have hpe : d.processed = [] := List.length_eq_zero.mp hp
    have hme : d.metadatas = [] := List.length_eq_zero.mp hm
    simp [popTags, Denoiser.pop, hpe, hme, popBack, Denoised.tag]
  | succ n ih =>
    intro d hp hm
    obtain ⟨P, pr, hP⟩ : ∃ P pr, d.processed = P ++ [pr] := by
      rcases List.eq_nil_or_concat d.processed with hcon | ⟨P, pr, hPP⟩
      · rw [hcon] at hp; simp at hp
      · exact ⟨P, pr, by simpa [List.concat_eq_append] using hPP⟩
    obtain ⟨M, y, hM⟩ : ∃ M y, d.metadatas = M ++ [y] := by
      rcases List.eq_nil_or_concat d.metadatas with hcon | ⟨M, y, hMM⟩
      · rw [hcon] at hm; simp at hm
      · exact ⟨M, y, by simpa [List.concat_eq_append] using hMM⟩
    obtain ⟨fr, im⟩ := pr
    have hpop : d.pop = (.Frame fr im y,
        { d with processed := P, metadatas := M }) := by
      unfold Denoiser.pop
      rw [hP, popBack_concat, hM, popBack_concat]
    have hPl : P.length = n := by
      rw [hP] at hp; simp at hp; omega
    have hMl : M.length = n := by
      rw [hM] at hm; simp at hm; omega
    have hstep : popTags d (n + 1 + 1) = (d.pop).1.tag :: popTags (d.pop).2 (n + 1) := rfl
    rw [hstep, hpop]
    dsimp only
    rw [ih { d with processed := P, metadatas := M } hPl hMl]
    simp [Denoised.tag, hM]

theorem pop_notYet {T : Type} (d : Denoiser T) (hp : d.processed = [])
    (hm : d.metadatas ≠ []) : d.pop = (.NotYet, d) := by
  unfold Denoiser.pop
  rw [hp]
  simp only [popBack]
  rw [if_neg (by simpa using hm)]

/-- C6: for every sequence of `k` frames successfully pushed into the
denoiser followed by `flush()`, popping yields exactly `k` frames whose
metadata appear in exactly the push order, followed by `Done`; and after
fewer than 5 pushes (and no flush) a pop yields `NotYet` and changes
nothing — the denoiser emits with a 5-frame lag, one output per input. -/
theorem claim6_denoiser_lag {T : Type} (w h q : Nat)
    (inputs : List (Img RGBA8 × Img RGB8 × T)) (d0 d : Denoiser T)
    (hnew : Denoiser.new T w h q = .ok d0)
    (hpush : d0.pushAll inputs = .ok d) :
    (popTags d.flush (inputs.length + 1) =
      inputs.map (fun x => PopTag.frame x.2.2) ++ [PopTag.done]) ∧
    (1 ≤ inputs.length → inputs.length < LOOKAHEAD → d.pop = (.NotYet, d)) := by
  have hd0 : d0.frames = 0 ∧ d0.processed = [] ∧ d0.metadatas = [] := by
    unfold Denoiser.new at hnew
    split at hnew
    · injection hnew with h2; subst h2; exact ⟨rfl, rfl, rfl⟩
    · exact Except.noConfusion hnew
  obtain ⟨hf0, hp0, hm0⟩ := hd0
  obtain ⟨hmeta, hframes, hproc⟩ := pushAll_effect inputs d0 d hpush
  rw [hm0, List.append_nil] at hmeta
  rw [hf0] at hframes hproc
  rw [hp0] at hproc
  simp only [List.length_nil, Nat.zero_add, Nat.sub_zero] at hframes hproc
  constructor
  · have hle : d.processed.length ≤ d.metadatas.length := by
      rw [hproc, hmeta]
      simp only [List.length_reverse, List.length_map, LOOKAHEAD]
      omega
    obtain ⟨hfm, hfp⟩ := flush_spec _ d (le_refl _) hle
    have hMlen : (d.flush).metadatas.length = inputs.length := by
      rw [hfm, hmeta]; simp
    have hPlen : (d.flush).processed.length = inputs.length := by
      rw [hfp, hmeta]; simp
    have := popTags_all inputs.length d.flush hPlen hMlen
    rw [this, hfm, hmeta]
    simp
  · intro h1 h5
    apply pop_notYet
    · have hz : d.processed.length = 0 := by
        rw [hproc]
        simp only [LOOKAHEAD] at h5 ⊢
        omega
      exact List.length_eq_zero.mp hz
    · rw [hmeta]
      simp only [ne_eq, List.reverse_eq_nil_iff, List.map_eq_nil_iff]
      intro hcon
      rw [hcon] at h1
      simp at h1

/-- C7: for quality in 1..=100 the denoiser's change threshold is
`(55 - quality/2)^2`, with the halving and squaring exact in unsigned
integer arithmetic (no u32 underflow or overflow). -/
theorem claim7_denoiser_threshold {T : Type} (w h q : Nat) (d : Denoiser T)
    (h1 : 1 ≤ q) (h2 : q ≤ 100) (hnew : Denoiser.new T w h q = .ok d) :
    d.threshold = (55 - q / 2) ^ 2 ∧
    q / 2 ≤ 55 ∧
    (55 - q / 2) ^ 2 < 2 ^ 32 := by
  refine ⟨?_, by omega, ?_⟩
  · unfold Denoiser.new at hnew
    split at hnew
    · injection hnew with h3; subst h3; rfl
    · exact Except.noConfusion hnew
  · have hb : 55 - q / 2 ≤ 55 := by omega
    calc (55 - q / 2) ^ 2 ≤ 55 ^ 2 := Nat.pow_le_pow_left hb 2
      _ < 2 ^ 32 := by norm_num

/-- The freshly constructed 1×1 denoiser used in the C6 witness. -/
def denoiser11 : Denoiser Nat :=
  { frames := 0
    threshold := 25
    splatW := 1
    splatH := 1
    splat := [clearAcc]
    processed := []
    metadatas := [] }

/-- The 1×1 denoiser after one opaque white push (C6 witness). -/
def denoiser11after : Denoiser Nat :=
  { frames := 1
    threshold := 25
    splatW := 1
    splatH := 1
    splat := [clearAcc.append ⟨255, 255, 255, 255⟩ ⟨255, 255, 255⟩]
    processed := []
    metadatas := [7] }

/-- Witness for C6: one pushed frame (k = 1 < 5): before `flush` a pop
reports `NotYet` and leaves the state unchanged; after `flush` the pops
yield exactly that frame's metadata and then `Done`. -/
theorem claim6_denoiser_lag_witness :
    Denoiser.new Nat 1 1 100 = .ok denoiser11 ∧
    denoiser11.pushAll
      [(Img.mk 1 1 [⟨255, 255, 255, 255⟩], Img.mk 1 1 [⟨255, 255, 255⟩], 7)] =
      .ok denoiser11after ∧
    popTags denoiser11after.flush 2 = [PopTag.frame 7, PopTag.done] ∧
    denoiser11after.pop = (.NotYet, denoiser11after) := by
  have hnew : Denoiser.new Nat 1 1 100 = .ok denoiser11 := rfl
  have hpush : denoiser11.pushAll
      [(Img.mk 1 1 [⟨255, 255, 255, 255⟩], Img.mk 1 1 [⟨255, 255, 255⟩], 7)] =
      .ok denoiser11after := rfl
  have h := claim6_denoiser_lag 1 1 100 _ denoiser11 denoiser11after hnew hpush
  exact ⟨hnew, hpush, by simpa using h.1, h.2 (by decide) (by decide)⟩

/-- The freshly constructed 2×2 denoiser used in the C7 witness. -/
def denoiser22 : Denoiser Nat :=
  { frames := 0
    threshold := 25
    splatW := 2
    splatH := 2
    splat := List.replicate 4 clearAcc
    processed := []
    metadatas := [] }

/-- Witness for C7 at quality 100: the threshold is `(55 - 50)^2 = 25`. -/
theorem claim7_denoiser_threshold_witness :
    (1 ≤ 100 ∧ (100 : Nat) ≤ 100) ∧
    Denoiser.new Nat 2 2 100 = .ok denoiser22 ∧
    denoiser22.threshold = (55 - 100 / 2) ^ 2 ∧
    denoiser22.threshold = 25 := by
  have hnew : Denoiser.new Nat 2 2 100 = .ok denoiser22 := rfl
  exact ⟨⟨by decide, by decide⟩, hnew,
    (claim7_denoiser_threshold 2 2 100 denoiser22 (by decide) (by decide) hnew).1,
    by decide⟩

end Gifski